import Mathlib

/-!
Shallow embedding of the dependency-graph analyzer CLI
(`src/cli-tool/index.js`, module-level analyzer) together with proofs about
its module detection, edge aggregation, path resolution and parse-fallback
logic.  JS `Map`s and `Set`s are embedded as insertion-ordered association
lists / duplicate-free lists, matching the iteration-order semantics of the
source.  Filesystem existence checks (`fs.existsSync`) are embedded as a
boolean predicate on path strings, frozen for the duration of a run.
-/

namespace DepGraph

/-- Which declared root directory a discovered file lies under: the
application root (`apps`) or the library root (`libs`).  In the source this
is the `moduleType` chosen by `detectModules` from
`filePath.startsWith(appDir)` / `filePath.startsWith(libsDir)`. -/
inductive Root where
  | app
  | lib
deriving DecidableEq, Repr

/-- The label the source prepends to module ids: literally `"apps"` for the
app root and `"libs"` for the libs root (see `detectModules`). -/
def Root.label : Root → String
  | .app => "apps"
  | .lib => "libs"

/-- Split a character list at every occurrence of `c` (kept structural so
the kernel can evaluate it; mirrors `String.split` on one separator). -/
def splitCharAux (c : Char) : List Char → List (List Char)
  | [] => [[]]
  | x :: xs =>
    match splitCharAux c xs with
    | [] => [[]]
    | h :: t => if x = c then [] :: h :: t else (x :: h) :: t

/-- JS `string.split(sep)` for a one-character separator. -/
def splitOnChar (c : Char) (s : String) : List String :=
  (splitCharAux c s.toList).map String.mk

/-- JS `string.startsWith(pre)`. -/
def strStarts (s pre : String) : Bool :=
  pre.toList.isPrefixOf s.toList

/-- Node `path.extname` restricted to a path's final segment (no slashes):
the substring from the last dot to the end, or `""` when there is no dot or
the only dot starts the name (hidden files like `.bashrc`). -/
def extnameOfBase (b : String) : String :=
  let cs := b.toList
  let idxs := (List.range cs.length).filter (fun i => cs.getD i ' ' = '.')
  match idxs.getLast? with
  | none => ""
  | some 0 => ""
  | some i => String.mk (cs.drop i)

/-- Node `path.extname` on a full path: the extension of the last
`/`-separated segment. -/
def extname (p : String) : String :=
  extnameOfBase ((splitOnChar '/' p).getLastD "")

/-- `path.basename(s, path.extname(s))` for a single path segment: the
segment with its extension (as computed by `extnameOfBase`) removed. -/
def stripExt (s : String) : String :=
  let cs := s.toList
  String.mk (cs.take (cs.length - (extnameOfBase s).toList.length))

/-- Path normalization used by `path.resolve`: drop empty and `.` segments,
let `..` pop the previous segment (never rising above the root). -/
def normalizeSegs : List String → List String → List String
  | acc, [] => acc.reverse
  | acc, s :: rest =>
    if s = "" ∨ s = "." then normalizeSegs acc rest
    else if s = ".." then normalizeSegs (acc.drop 1) rest
    else normalizeSegs (s :: acc) rest

/-- Join path segments with `/` (the `path.join`/`path.resolve` output
form). -/
def joinSegs : List String → String
  | [] => ""
  | [s] => s
  | s :: rest => s ++ "/" ++ joinSegs rest

/-- `path.resolve(fileDir, importPath)` for an absolute `fileDir`: join
unless `importPath` is already absolute, then normalize. -/
def pathResolve (fileDir importPath : String) : String :=
  let full := if strStarts importPath "/" then importPath else fileDir ++ "/" ++ importPath
  "/" ++ joinSegs (normalizeSegs [] (splitOnChar '/' full))

/-- `path.relative(root, p)` specialised to the analyzer's use, where `p`
always lies under `root`: strip the `root ++ "/"` prefix. -/
def pathRelative (root p : String) : String :=
  let pre := root ++ "/"
  if strStarts p pre then String.mk (p.toList.drop pre.toList.length) else p

/-- `countLines` from the source: `content.split('\n').length`, i.e. the
number of newline-separated pieces, blank lines included. -/
def countLines (content : String) : Nat :=
  (splitOnChar '\n' content).length

/-- The recognized source extensions, in exactly the preference order the
resolver's loop tries them (`resolveImportPath` in the source). -/
def extensions : List String := [".js", ".jsx", ".ts", ".tsx", ".mjs", ".cjs"]

/-- One pass of the resolver's extension loop: the first extension in
`extensions` whose candidate `base ++ ext` exists, if any. -/
def tryWithExtensions (fsExists : String → Bool) (base : String) : Option String :=
  (extensions.find? (fun e => fsExists (base ++ e))).map (fun e => base ++ e)

/-- `resolveImportPath(importPath, fileDir)` from the source: resolve the
specifier against the importing directory; when the result has no
extension, try each recognized extension in order, then the same search
against `<resolved>/index`; finally return the bare resolved path when it
exists and null (`none`) otherwise. -/
def resolveImportPath (fsExists : String → Bool) (importPath fileDir : String) : Option String :=
  let resolvedPath := pathResolve fileDir importPath
  if extname resolvedPath = "" then
    match tryWithExtensions fsExists resolvedPath with
    | some p => some p
    | none =>
      match tryWithExtensions fsExists (resolvedPath ++ "/index") with
      | some p => some p
      | none => if fsExists resolvedPath then some resolvedPath else none
  else
    if fsExists resolvedPath then some resolvedPath else none

/-- One resolved import of a file as `buildModuleDependencyGraph` consumes
it: the target path relative to the project root plus the imported symbol
names (`importInfo.symbols[*].name`). -/
structure ImportInfo where
  path : String
  symbols : List String
deriving DecidableEq, Repr

/-- A discovered source file, as produced by the walker and consumed by
`detectModules` / `buildModuleDependencyGraph`.  `path` is the path
relative to the project root (`path.relative(projectRoot, absolutePath)`),
`root`/`relPath` record which declared root contains the file and the path
relative to that root (`path.relative(appDir, filePath)`), and `imports`
is the per-file result of the import extraction
(`parseImportsWithTsMorph`). -/
structure SrcFile where
  path : String
  root : Option Root
  relPath : String
  isTest : Bool
  content : String
  imports : List ImportInfo
deriving DecidableEq, Repr

/-- JS `Map.get`: the value of the first (and in this development only)
entry with the given key. -/
def mapFind? {β : Type} : List (String × β) → String → Option β
  | [], _ => none
  | (k0, v) :: rest, k => if k = k0 then some v else mapFind? rest k

/-- The key list of an association list (JS `Map` iteration order). -/
def keysOf {β : Type} (m : List (String × β)) : List String :=
  m.map Prod.fst

/-- Apply `g` to the value stored under `k` (no-op on other entries). -/
def mapUpdate {β : Type} : List (String × β) → String → (β → β) → List (String × β)
  | [], _, _ => []
  | (k0, v) :: rest, k, g =>
    if k0 = k then (k0, g v) :: mapUpdate rest k g else (k0, v) :: mapUpdate rest k g

/-- JS `Map.set`: overwrite the entry for `k` when present, otherwise
append a new one. -/
def mapSet {β : Type} (m : List (String × β)) (k : String) (v : β) : List (String × β) :=
  if (mapFind? m k).isSome then mapUpdate m k (fun _ => v) else m ++ [(k, v)]

/-- JS `Set.add` on an insertion-ordered duplicate-free list. -/
def setAdd (l : List String) (x : String) : List String :=
  if x ∈ l then l else l ++ [x]

/-- Module id construction from `detectModules`: split the root-relative
path on the separator; a single segment (file directly in the root) gives
`<label>/<filename-without-extension>`, more segments give
`<label>/<first-segment>`; files under neither root get no module. -/
def moduleIdOf (f : SrcFile) : Option String :=
  match f.root with
  | none => none
  | some r =>
    match splitOnChar '/' f.relPath with
    | [single] => some (r.label ++ "/" ++ stripExt single)
    | first :: _ :: _ => some (r.label ++ "/" ++ first)
    | [] => none

/-- Per-module aggregate built by `detectModules`: kind, member files (in
processing order), summed line count and file count. -/
structure ModuleInfo where
  type : Root
  files : List SrcFile
  linesOfCode : Nat
  fileCount : Nat
deriving DecidableEq, Repr

/-- One iteration of the `detectModules` loop: skip test files, classify
the file, then create or update its module's entry (push the file, add its
line count, bump the file count). -/
def detectStep (modules : List (String × ModuleInfo)) (f : SrcFile) : List (String × ModuleInfo) :=
  if f.isTest then modules
  else
    match f.root, moduleIdOf f with
    | some r, some mid =>
      if (mapFind? modules mid).isSome then
        mapUpdate modules mid (fun m =>
          { m with
            files := m.files ++ [f]
            linesOfCode := m.linesOfCode + countLines f.content
            fileCount := m.fileCount + 1 })
      else
        modules ++ [(mid, ⟨r, [f], countLines f.content, 1⟩)]
    | _, _ => modules

/-- `detectModules(files, appDir, libsDir)` from the source: fold the file
list into the insertion-ordered module map. -/
def detectModules (files : List SrcFile) : List (String × ModuleInfo) :=
  files.foldl detectStep []

/-- The `fileToModuleMap` built at the top of
`buildModuleDependencyGraph`: each module's member file paths mapped to
the module id. -/
def fileToModuleMap (modules : List (String × ModuleInfo)) : List (String × String) :=
  modules.foldl (fun acc e => e.2.files.foldl (fun acc2 f => mapSet acc2 f.path e.1) acc) []

/-- Per-target detail tracked for a module pair: insertion-ordered symbol
set and the running count. -/
structure ImportDetail where
  symbols : List String
  count : Nat
deriving DecidableEq, Repr

/-- The per-module dependency record of `buildModuleDependencyGraph`:
`imports` / `importedBy` sets and the `importDetails` map. -/
structure ModuleDeps where
  imports : List String
  importedBy : List String
  importDetails : List (String × ImportDetail)
deriving DecidableEq, Repr

def emptyDeps : ModuleDeps := ⟨[], [], []⟩

/-- Ensure an `importDetails` entry for the target exists, then bump its
count and union in the symbol names — the body of the edge-update block in
`buildModuleDependencyGraph`. -/
def detailUpdate (ds : List (String × ImportDetail)) (t : String) (syms : List String) :
    List (String × ImportDetail) :=
  let ds1 := if (mapFind? ds t).isSome then ds else ds ++ [(t, ⟨[], 0⟩)]
  mapUpdate ds1 t (fun d => ⟨syms.foldl setAdd d.symbols, d.count + 1⟩)

/-- Processing of one resolved import of one file: look up the target
module; when it is a (truthy) module different from the source module,
record the forward and reverse adjacency and update the edge detail. -/
def processImport (f2m : List (String × String)) (sourceId : String)
    (deps : List (String × ModuleDeps)) (imp : ImportInfo) : List (String × ModuleDeps) :=
  match mapFind? f2m imp.path with
  | none => deps
  | some targetId =>
    if targetId ≠ "" ∧ targetId ≠ sourceId then
      let d1 := mapUpdate deps sourceId (fun d => { d with imports := setAdd d.imports targetId })
      let d2 := mapUpdate d1 targetId (fun d => { d with importedBy := setAdd d.importedBy sourceId })
      mapUpdate d2 sourceId (fun d =>
        { d with importDetails := detailUpdate d.importDetails targetId imp.symbols })
    else deps

/-- Processing of one file in `buildModuleDependencyGraph`: skip test
files and files without a source module, then fold over the file's
resolved imports. -/
def processFile (f2m : List (String × String)) (deps : List (String × ModuleDeps))
    (f : SrcFile) : List (String × ModuleDeps) :=
  if f.isTest then deps
  else
    match mapFind? f2m f.path with
    | none => deps
    | some sourceId =>
      if sourceId = "" then deps
      else f.imports.foldl (processImport f2m sourceId) deps

/-- `buildModuleDependencyGraph` from the source: initialize every module
with empty dependency records, then process every file's imports. -/
def buildModuleDependencyGraph (modules : List (String × ModuleInfo)) (files : List SrcFile) :
    List (String × ModuleDeps) :=
  files.foldl (processFile (fileToModuleMap modules))
    (modules.map (fun e => (e.1, emptyDeps)))

/-- One serialized `importDetails` element of the output document. -/
structure ImportDetailOut where
  module : String
  symbols : List String
  count : Nat
deriving DecidableEq, Repr

/-- One module node of the emitted graph (`moduleGraph[moduleId]` in
`analyzeDirectories`). -/
structure ModuleNode where
  id : String
  type : Root
  linesOfCode : Nat
  fileCount : Nat
  imports : List String
  importedBy : List String
  importDetails : List ImportDetailOut
deriving DecidableEq, Repr

/-- The serialization step of `analyzeDirectories`: pair every detected
module with its dependency record and flatten the sets into arrays. -/
def moduleGraphOf (modules : List (String × ModuleInfo)) (deps : List (String × ModuleDeps)) :
    List ModuleNode :=
  modules.map (fun e =>
    let d := (mapFind? deps e.1).getD emptyDeps
    { id := e.1
      type := e.2.type
      linesOfCode := e.2.linesOfCode
      fileCount := e.2.fileCount
      imports := d.imports
      importedBy := d.importedBy
      importDetails := d.importDetails.map (fun p => ⟨p.1, p.2.symbols, p.2.count⟩) })

/-- The graph-producing core of `analyzeDirectories`: detect modules,
build the module-level dependencies, serialize.  Directory traversal,
timestamps and file writing are I/O collaborators outside the model; the
walker's output is the `files` argument. -/
def analyzeDirectories (files : List SrcFile) : List ModuleNode :=
  moduleGraphOf (detectModules files) (buildModuleDependencyGraph (detectModules files) files)

/-- One edge of the output data contract: an `importDetails` entry of a
module node, read as `{from, to, count, symbols}`. -/
structure Edge where
  src : String
  tgt : String
  count : Nat
  symbols : List String
deriving DecidableEq, Repr

/-- All edges of an emitted graph, in node order. -/
def edgesOf (g : List ModuleNode) : List Edge :=
  (g.map (fun n => n.importDetails.map (fun d => Edge.mk n.id d.module d.count d.symbols))).flatten

/-- `incomingCount` as the consumer computes it from the emitted record:
the length of the (duplicate-free) `importedBy` array. -/
def incomingCount (n : ModuleNode) : Nat := n.importedBy.length

/-- `outgoingCount` as the consumer computes it from the emitted record:
the length of the (duplicate-free) `imports` array. -/
def outgoingCount (n : ModuleNode) : Nat := n.imports.length

/-- Number of distinct values in a list of module ids. -/
def distinctCount (l : List String) : Nat := l.dedup.length

/-- One raw import record as the per-file extraction produces it before
resolution (specifier, symbol names, type-only flag). -/
structure RawImport where
  path : String
  symbols : List String
  isTypeOnly : Bool
deriving DecidableEq, Repr

/-- Outcome of handing a file to the structured (ts-morph AST) parser,
which is an external library: either the extracted import records or a
raised error with its message. -/
inductive ParseOutcome where
  | ok (imports : List RawImport)
  | err (msg : String)
deriving DecidableEq, Repr

/-- The inputs `parseImportsWithTsMorph` consumes for one file: the file's
path and directory, the structured parser's outcome, and the string
literals the fallback regular expressions match in the file's text (the JS
regex engine is external; its match list is taken as given). -/
structure FileParse where
  name : String
  dir : String
  outcome : ParseOutcome
  regexMatches : List String
deriving DecidableEq, Repr

/-- `parseImportsRegexFallback` from the source: keep only relative or
absolute-in-project specifiers from the regex matches, each recorded with
no symbol detail (empty symbol list, not type-only), then resolve each
specifier and keep those that resolve to an existing path, rewritten
relative to the project root. -/
def parseImportsRegexFallback (fsExists : String → Bool) (projectRoot : String)
    (fp : FileParse) : List RawImport :=
  let imports := (fp.regexMatches.filter
      (fun s => strStarts s "." || strStarts s "/")).map
    (fun s => RawImport.mk s [] false)
  imports.filterMap (fun i =>
    match resolveImportPath fsExists i.path fp.dir with
    | some rp =>
      if fsExists rp then some (RawImport.mk (pathRelative projectRoot rp) i.symbols i.isTypeOnly)
      else none
    | none => none)

/-- `parseImportsWithTsMorph` from the source: on a structured-parse error,
log a warning (returned here as the second component) and fall back to the
regex scan for this file; on success, resolve each extracted import —
first through the ts-morph reference resolution (`tsResolve`, an external
library lookup), then through the manual `resolveImportPath` — keeping
those that resolve to an existing path. -/
def parseImportsWithTsMorph (fsExists : String → Bool) (tsResolve : String → Option String)
    (projectRoot : String) (fp : FileParse) : List RawImport × Option String :=
  match fp.outcome with
  | .err msg =>
    (parseImportsRegexFallback fsExists projectRoot fp,
      some ("Warning: Failed to parse " ++ fp.name ++ " with ts-morph: " ++ msg))
  | .ok imports =>
    (imports.filterMap (fun i =>
      let rp := match tsResolve i.path with
        | some p => some p
        | none => resolveImportPath fsExists i.path fp.dir
      match rp with
      | some p =>
        if fsExists p then
          some (RawImport.mk (pathRelative projectRoot p) i.symbols i.isTypeOnly)
        else none
      | none => none), none)

/-- The per-file extraction loop of the analyzer: parse every file in
order, collecting each file's resolved imports and every warning.  A
parse failure only switches that one file to the fallback path; the loop
never stops early. -/
def runParseAll (fsExists : String → Bool) (tsResolve : String → Option String)
    (projectRoot : String) (files : List FileParse) :
    List (String × List RawImport) × List String :=
  files.foldl (fun acc fp =>
    let r := parseImportsWithTsMorph fsExists tsResolve projectRoot fp
    (acc.1 ++ [(fp.name, r.1)],
      match r.2 with
      | some w => acc.2 ++ [w]
      | none => acc.2)) ([], [])

/-- The number of distinct files of module `srcId` that have at least one
resolved import into module `tgtId` — the quantity the spec asserts an
edge's `count` equals. -/
def contributingFileCount (files : List SrcFile) (srcId tgtId : String) : Nat :=
  let f2m := fileToModuleMap (detectModules files)
  (files.filter (fun f => !f.isTest && (mapFind? f2m f.path == some srcId)
    && f.imports.any (fun i => mapFind? f2m i.path == some tgtId))).length

/-! ### Concrete inputs used for counterexamples and witnesses -/

/-- A production file of module `apps/a` with two import declarations both
targeting files of module `libs/util` (as in
`import { foo } from '../../libs/util/helpers'` followed by
`import { bar } from '../../libs/util/format'`). -/
def fileAX : SrcFile :=
  { path := "apps/a/x.ts", root := some .app, relPath := "a/x.ts", isTest := false,
    content := "l1\nl2",
    imports := [⟨"libs/util/helpers.ts", ["foo"]⟩, ⟨"libs/util/format.ts", ["bar"]⟩] }

def fileUtilHelpers : SrcFile :=
  { path := "libs/util/helpers.ts", root := some .lib, relPath := "util/helpers.ts",
    isTest := false, content := "a", imports := [] }

def fileUtilFormat : SrcFile :=
  { path := "libs/util/format.ts", root := some .lib, relPath := "util/format.ts",
    isTest := false, content := "b", imports := [] }

/-- One source module (one file) importing twice from one target module. -/
def twoImportFiles : List SrcFile := [fileAX, fileUtilHelpers, fileUtilFormat]

/-- A production file and a test file in the same module directory. -/
def fileBMain : SrcFile :=
  { path := "apps/b/main.ts", root := some .app, relPath := "b/main.ts", isTest := false,
    content := "x\ny\nz", imports := [] }

def fileBTest : SrcFile :=
  { path := "apps/b/main.test.ts", root := some .app, relPath := "b/main.test.ts",
    isTest := true, content := "t1\nt2", imports := [] }

def prodAndTestFiles : List SrcFile := [fileBMain, fileBTest]

/-- A file-existence predicate under which `/proj/src/utils` exists (as a
directory does for `fs.existsSync`) but no extension or index candidate
derived from it does. -/
def dirOnlyFs : String → Bool := fun p => p = "/proj/src/utils"

/-- A file-existence predicate with a single target file `/pr/a/b.ts`. -/
def oneFileFs : String → Bool := fun p => p = "/pr/a/b.ts"

/-- A file whose structured parse fails, whose text matches the fallback
regexes at `./b` (relative, kept) and `lodash` (bare, dropped). -/
def failingParseFile : FileParse :=
  { name := "/pr/a/c.ts", dir := "/pr/a", outcome := .err "boom",
    regexMatches := ["./b", "lodash"] }

/-- A file whose structured parse succeeds with one relative import. -/
def okParseFile : FileParse :=
  { name := "/pr/a/d.ts", dir := "/pr/a", outcome := .ok [⟨"./b", ["f"], false⟩],
    regexMatches := ["./b"] }

/-- The single edge the analyzer emits on `twoImportFiles`. -/
def edgeAppsAToLibsUtil : Edge := ⟨"apps/a", "libs/util", 2, ["foo", "bar"]⟩

/-- The `apps/a` node the analyzer emits on `twoImportFiles`. -/
def nodeAppsA : ModuleNode :=
  ⟨"apps/a", .app, 2, 1, ["libs/util"], [], [⟨"libs/util", ["foo", "bar"], 2⟩]⟩

/-- The `libs/util` node the analyzer emits on `twoImportFiles`. -/
def nodeLibsUtil : ModuleNode :=
  ⟨"libs/util", .lib, 2, 2, [], ["apps/a"], []⟩

/-- The `apps/b` module record `detectModules` builds on
`prodAndTestFiles`. -/
def moduleAppsB : ModuleInfo := ⟨.app, [fileBMain], 3, 1⟩

/-! ### Basic lemmas about the map and set embeddings -/

theorem mapFind?_mapUpdate {β : Type} (m : List (String × β)) (k : String) (g : β → β)
    (x : String) :
    mapFind? (mapUpdate m k g) x = if x = k then (mapFind? m x).map g else mapFind? m x := by
  induction m with
  | nil => simp [mapFind?, mapUpdate]
  | cons e rest ih =>
    obtain ⟨a, b⟩ := e
    by_cases ha : a = k
    · subst ha
      by_cases hx : x = a
      · subst hx
        simp [mapUpdate, mapFind?, ih]
      · simp [mapUpdate, mapFind?, hx, ih]
    · by_cases hx : x = a
      · subst hx
        simp [mapUpdate, mapFind?, ha, ih]
      · simp [mapUpdate, mapFind?, ha, hx, ih]

theorem keysOf_mapUpdate {β : Type} (m : List (String × β)) (k : String) (g : β → β) :
    keysOf (mapUpdate m k g) = keysOf m := by
  induction m with
  | nil => rfl
  | cons e rest ih =>
    obtain ⟨a, b⟩ := e
    simp only [keysOf, List.map_cons] at ih ⊢
    by_cases ha : a = k <;> simp [mapUpdate, ha, ih]

theorem mapFind?_eq_none_iff {β : Type} (m : List (String × β)) (k : String) :
    mapFind? m k = none ↔ k ∉ keysOf m := by
  induction m with
  | nil => simp [mapFind?, keysOf]
  | cons e rest ih =>
    obtain ⟨a, b⟩ := e
    by_cases hx : k = a <;> simp [mapFind?, keysOf, hx, ih] at *

theorem mapFind?_isSome_iff {β : Type} (m : List (String × β)) (k : String) :
    (mapFind? m k).isSome ↔ k ∈ keysOf m := by
  constructor
  · intro hs
    by_contra hk
    rw [← mapFind?_eq_none_iff] at hk
    simp [hk] at hs
  · intro hk
    rcases h : mapFind? m k with _ | v
    · rw [mapFind?_eq_none_iff] at h
      exact absurd hk h
    · simp

theorem mapFind?_append {β : Type} (m1 m2 : List (String × β)) (k : String) :
    mapFind? (m1 ++ m2) k =
      match mapFind? m1 k with
      | some v => some v
      | none => mapFind? m2 k := by
  induction m1 with
  | nil => simp [mapFind?]
  | cons e rest ih =>
    by_cases hx : k = e.1 <;> simp [mapFind?, hx, ih]

theorem mapFind?_mem {β : Type} {m : List (String × β)} {k : String} {v : β}
    (h : mapFind? m k = some v) : (k, v) ∈ m := by
  induction m with
  | nil => simp [mapFind?] at h
  | cons e rest ih =>
    obtain ⟨a, b⟩ := e
    by_cases hx : k = a
    · subst hx
      simp [mapFind?] at h
      subst h
      exact List.mem_cons_self _ _
    · simp [mapFind?, hx] at h
      exact List.mem_cons_of_mem _ (ih h)

theorem mem_setAdd {l : List String} {x y : String} :
    y ∈ setAdd l x ↔ y ∈ l ∨ y = x := by
  by_cases h : x ∈ l
  · simp [setAdd, h]
    intro hy
    exact hy ▸ h
  · simp [setAdd, h]

theorem nodup_setAdd {l : List String} {x : String} (h : l.Nodup) : (setAdd l x).Nodup := by
  by_cases hx : x ∈ l
  · simpa [setAdd, hx] using h
  · rw [setAdd, if_neg hx]
    refine List.Nodup.append h (List.nodup_singleton x) ?_
    intro a ha hb
    rw [List.mem_singleton] at hb
    exact hx (hb ▸ ha)

theorem mem_keysOf_detailUpdate {ds : List (String × ImportDetail)} {t : String}
    {syms : List String} {y : String} :
    y ∈ keysOf (detailUpdate ds t syms) ↔ y ∈ keysOf ds ∨ y = t := by
  unfold detailUpdate
  by_cases h : (mapFind? ds t).isSome
  · rw [if_pos h, keysOf_mapUpdate]
    rw [mapFind?_isSome_iff] at h
    constructor
    · exact Or.inl
    · rintro (hy | rfl) <;> assumption
  · rw [if_neg h, keysOf_mapUpdate]
    simp [keysOf]

theorem mapFind?_mapConst {β γ : Type} (m : List (String × β)) (c : γ) (x : String) :
    mapFind? (m.map (fun e => (e.1, c))) x = (mapFind? m x).map (fun _ => c) := by
  induction m with
  | nil => simp [mapFind?]
  | cons e rest ih =>
    by_cases hx : x = e.1 <;> simp [mapFind?, hx, ih]

theorem keysOf_mapConst {β γ : Type} (m : List (String × β)) (c : γ) :
    keysOf (m.map (fun e => (e.1, c))) = keysOf m := by
  simp [keysOf, List.map_map]

theorem mapFind?_mapSet {β : Type} (m : List (String × β)) (k : String) (v : β) (x : String) :
    mapFind? (mapSet m k v) x = if x = k then some v else mapFind? m x := by
  unfold mapSet
  by_cases h : (mapFind? m k).isSome
  · rw [if_pos h, mapFind?_mapUpdate]
    by_cases hx : x = k
    · subst hx
      obtain ⟨v0, hv⟩ := Option.isSome_iff_exists.mp h
      simp [hv]
    · simp [hx]
  · rw [if_neg h, mapFind?_append]
    by_cases hx : x = k
    · subst hx
      rw [Option.not_isSome_iff_eq_none] at h
      simp [h, mapFind?]
    · cases hh : mapFind? m x <;> simp [mapFind?, hx, hh]

/-! ### The effect of one import on the module-dependency map -/

/-- `processImport`, in the case where the target module is found and
distinct from the source module, updates exactly the source entry (adding
the target to its `imports` set and updating its `importDetails`) and the
target entry (adding the source to its `importedBy` set). -/
theorem processImport_find (f2m : List (String × String)) (S : String)
    (m : List (String × ModuleDeps)) (i : ImportInfo) (T : String)
    (hT : mapFind? f2m i.path = some T) (hg : T ≠ "" ∧ T ≠ S) (x : String) :
    mapFind? (processImport f2m S m i) x =
      if x = S then
        (mapFind? m x).map (fun d =>
          ⟨setAdd d.imports T, d.importedBy, detailUpdate d.importDetails T i.symbols⟩)
      else if x = T then
        (mapFind? m x).map (fun d => ⟨d.imports, setAdd d.importedBy S, d.importDetails⟩)
      else mapFind? m x := by
  have hST : ¬ S = T := fun h => hg.2 h.symm
  simp only [processImport, hT, if_pos hg]
  by_cases hxS : x = S
  · subst hxS
    rcases h0 : mapFind? m x with _ | d <;>
      simp [mapFind?_mapUpdate, hST, h0]
  · by_cases hxT : x = T
    · subst hxT
      rcases h0 : mapFind? m x with _ | d <;>
        simp [mapFind?_mapUpdate, hxS, h0]
    · simp [mapFind?_mapUpdate, hxS, hxT]

theorem keysOf_processImport (f2m : List (String × String)) (S : String)
    (m : List (String × ModuleDeps)) (i : ImportInfo) :
    keysOf (processImport f2m S m i) = keysOf m := by
  unfold processImport
  rcases mapFind? f2m i.path with _ | T
  · rfl
  · by_cases hg : T ≠ "" ∧ T ≠ S <;> simp [hg, keysOf_mapUpdate]

/-- Every value of the `fileToModuleMap` is the id of a detected module. -/
theorem mapSet_range {β : Type} {P : β → Prop} {m : List (String × β)} {k : String} {v : β}
    (hm : ∀ p w, mapFind? m p = some w → P w) (hv : P v) :
    ∀ p w, mapFind? (mapSet m k v) p = some w → P w := by
  intro p w hw
  rw [mapFind?_mapSet] at hw
  by_cases hp : p = k
  · rw [if_pos hp] at hw
    cases hw
    exact hv
  · rw [if_neg hp] at hw
    exact hm _ _ hw

theorem foldFiles_range {K : List String} {mid : String} (hmid : mid ∈ K) :
    ∀ (fs : List SrcFile) (acc : List (String × String)),
      (∀ p w, mapFind? acc p = some w → w ∈ K) →
      ∀ p w, mapFind? (fs.foldl (fun a f => mapSet a f.path mid) acc) p = some w → w ∈ K := by
  intro fs
  induction fs with
  | nil => intro acc hacc; exact hacc
  | cons f rest ih =>
    intro acc hacc
    exact ih _ (mapSet_range hacc hmid)

theorem fileToModuleMap_range (modules : List (String × ModuleInfo)) :
    ∀ p T, mapFind? (fileToModuleMap modules) p = some T → T ∈ keysOf modules := by
  unfold fileToModuleMap
  suffices h : ∀ (ms : List (String × ModuleInfo)) (acc : List (String × String)),
      (∀ e, e ∈ ms → e.1 ∈ keysOf modules) →
      (∀ p T, mapFind? acc p = some T → T ∈ keysOf modules) →
      ∀ p T,
        mapFind? (ms.foldl (fun a e => e.2.files.foldl (fun a2 f => mapSet a2 f.path e.1) a) acc)
          p = some T → T ∈ keysOf modules by
    refine h modules [] (fun e he => ?_) (fun p T hc => by simp [mapFind?] at hc)
    exact List.mem_map_of_mem Prod.fst he
  intro ms
  induction ms with
  | nil => intro acc _ hacc; exact hacc
  | cons e rest ih =>
    intro acc hmem hacc
    refine ih _ (fun e' he' => hmem e' (List.mem_cons_of_mem _ he')) ?_
    exact foldFiles_range (hmem e (List.mem_cons_self _ _)) e.2.files acc hacc

/-- Keys of `detailUpdate` stay duplicate-free. -/
theorem nodup_keysOf_detailUpdate {ds : List (String × ImportDetail)} {t : String}
    {syms : List String} (h : (keysOf ds).Nodup) :
    (keysOf (detailUpdate ds t syms)).Nodup := by
  unfold detailUpdate
  by_cases hp : (mapFind? ds t).isSome
  · rw [if_pos hp, keysOf_mapUpdate]
    exact h
  · rw [if_neg hp, keysOf_mapUpdate]
    have hk : keysOf (ds ++ [(t, (⟨[], 0⟩ : ImportDetail))]) = keysOf ds ++ [t] := by
      simp [keysOf]
    rw [hk]
    have ht : t ∉ keysOf ds := by
      rw [← mapFind?_eq_none_iff]
      exact Option.not_isSome_iff_eq_none.mp hp
    refine List.Nodup.append h (List.nodup_singleton t) ?_
    intro a ha hb
    rw [List.mem_singleton] at hb
    exact ht (hb ▸ ha)

/-- How a lookup in the dependency map decomposes after one import has
been processed (in the case where an edge is actually recorded). -/
theorem processImport_decomp (f2m : List (String × String)) (S : String)
    (m : List (String × ModuleDeps)) (i : ImportInfo) (T : String)
    (hT : mapFind? f2m i.path = some T) (hg : T ≠ "" ∧ T ≠ S)
    {x : String} {dx : ModuleDeps}
    (hx : mapFind? (processImport f2m S m i) x = some dx) :
    ∃ d0, mapFind? m x = some d0 ∧
      dx.imports = (if x = S then setAdd d0.imports T else d0.imports) ∧
      dx.importedBy = (if x = T then setAdd d0.importedBy S else d0.importedBy) ∧
      dx.importDetails =
        (if x = S then detailUpdate d0.importDetails T i.symbols else d0.importDetails) := by
  have hST : ¬ S = T := fun hh => hg.2 hh.symm
  have hTS : ¬ T = S := hg.2
  rw [processImport_find f2m S m i T hT hg x] at hx
  by_cases hxS : x = S
  · have hxT : ¬ x = T := fun h => hg.2 (h.symm.trans hxS)
    rw [if_pos hxS] at hx
    rcases h0 : mapFind? m x with _ | d0
    · rw [h0] at hx
      cases hx
    · rw [h0] at hx
      have hdx := Option.some.inj hx
      refine ⟨d0, rfl, ?_, ?_, ?_⟩ <;> rw [← hdx] <;> simp [hxS, hxT, hST, hTS]
  · rw [if_neg hxS] at hx
    by_cases hxT : x = T
    · rw [if_pos hxT] at hx
      rcases h0 : mapFind? m x with _ | d0
      · rw [h0] at hx
        cases hx
      · rw [h0] at hx
        have hdx := Option.some.inj hx
        refine ⟨d0, rfl, ?_, ?_, ?_⟩ <;> rw [← hdx] <;> simp [hxS, hxT, hST, hTS]
    · rw [if_neg hxT] at hx
      exact ⟨dx, hx, by simp [hxS], by simp [hxT], by simp [hxS]⟩

/-- The invariant maintained over the module-dependency map while
`buildModuleDependencyGraph` folds over the files: keys are exactly the
detected module ids, the forward and reverse adjacency sets mirror each
other, the `importDetails` keys coincide with the `imports` set, every
recorded id is a module id, no module imports itself, and all sets are
duplicate-free. -/
structure DepMapInv (K : List String) (m : List (String × ModuleDeps)) : Prop where
  keys_eq : keysOf m = K
  mirror : ∀ s ds t dt, mapFind? m s = some ds → mapFind? m t = some dt →
    (t ∈ ds.imports ↔ s ∈ dt.importedBy)
  det_iff : ∀ s ds t, mapFind? m s = some ds →
    (t ∈ ds.imports ↔ t ∈ keysOf ds.importDetails)
  closed_imp : ∀ s ds t, mapFind? m s = some ds → t ∈ ds.imports → t ∈ K
  closed_by : ∀ s ds t, mapFind? m s = some ds → t ∈ ds.importedBy → t ∈ K
  no_self : ∀ s ds, mapFind? m s = some ds → s ∉ ds.imports
  nd_imp : ∀ s ds, mapFind? m s = some ds → ds.imports.Nodup
  nd_by : ∀ s ds, mapFind? m s = some ds → ds.importedBy.Nodup
  nd_det : ∀ s ds, mapFind? m s = some ds → (keysOf ds.importDetails).Nodup

theorem DepMapInv.preserve_processImport {K : List String} {f2m : List (String × String)}
    {S : String} {m : List (String × ModuleDeps)} (i : ImportInfo)
    (hS : S ∈ K) (hR : ∀ p T, mapFind? f2m p = some T → T ∈ K)
    (h : DepMapInv K m) : DepMapInv K (processImport f2m S m i) := by
  rcases hT : mapFind? f2m i.path with _ | T
  · simpa [processImport, hT] using h
  · by_cases hg : T ≠ "" ∧ T ≠ S
    · have hTK : T ∈ K := hR _ _ hT
      have decomp : ∀ {x : String} {dx : ModuleDeps},
          mapFind? (processImport f2m S m i) x = some dx →
          ∃ d0, mapFind? m x = some d0 ∧
            dx.imports = (if x = S then setAdd d0.imports T else d0.imports) ∧
            dx.importedBy = (if x = T then setAdd d0.importedBy S else d0.importedBy) ∧
            dx.importDetails =
              (if x = S then detailUpdate d0.importDetails T i.symbols else d0.importDetails) :=
        fun hx => processImport_decomp f2m S m i T hT hg hx
      constructor
      · rw [keysOf_processImport]
        exact h.keys_eq
      · intro s ds t dt hs ht
        obtain ⟨ds0, hs0, hsi, _, _⟩ := decomp hs
        obtain ⟨dt0, ht0, _, htb, _⟩ := decomp ht
        rw [hsi, htb]
        have base := h.mirror s ds0 t dt0 hs0 ht0
        by_cases hsS : s = S
        · by_cases htT : t = T
          · rw [if_pos hsS, if_pos htT]
            simp [mem_setAdd, hsS, htT]
          · rw [if_pos hsS, if_neg htT]
            simp [mem_setAdd, htT, base]
        · by_cases htT : t = T
          · rw [if_neg hsS, if_pos htT]
            simp [mem_setAdd, hsS, base]
          · rw [if_neg hsS, if_neg htT]
            exact base
      · intro s ds t hs
        obtain ⟨ds0, hs0, hsi, _, hsd⟩ := decomp hs
        rw [hsi, hsd]
        have base := h.det_iff s ds0 t hs0
        by_cases hsS : s = S <;>
          simp [hsS, mem_setAdd, mem_keysOf_detailUpdate, base]
      · intro s ds t hs ht
        obtain ⟨ds0, hs0, hsi, _, _⟩ := decomp hs
        rw [hsi] at ht
        by_cases hsS : s = S
        · rw [if_pos hsS] at ht
          rcases mem_setAdd.mp ht with h0 | rfl
          · exact h.closed_imp s ds0 t hs0 h0
          · exact hTK
        · rw [if_neg hsS] at ht
          exact h.closed_imp s ds0 t hs0 ht
      · intro s ds t hs ht
        obtain ⟨ds0, hs0, _, hsb, _⟩ := decomp hs
        rw [hsb] at ht
        by_cases hsT : s = T
        · rw [if_pos hsT] at ht
          rcases mem_setAdd.mp ht with h0 | rfl
          · exact h.closed_by s ds0 t hs0 h0
          · exact hS
        · rw [if_neg hsT] at ht
          exact h.closed_by s ds0 t hs0 ht
      · intro s ds hs
        obtain ⟨ds0, hs0, hsi, _, _⟩ := decomp hs
        rw [hsi]
        by_cases hsS : s = S
        · rw [if_pos hsS]
          intro hmem
          rcases mem_setAdd.mp hmem with h0 | h0
          · exact h.no_self s ds0 hs0 h0
          · exact hg.2 (h0 ▸ hsS ▸ rfl)
        · rw [if_neg hsS]
          exact h.no_self s ds0 hs0
      · intro s ds hs
        obtain ⟨ds0, hs0, hsi, _, _⟩ := decomp hs
        rw [hsi]
        by_cases hsS : s = S
        · rw [if_pos hsS]
          exact nodup_setAdd (h.nd_imp s ds0 hs0)
        · rw [if_neg hsS]
          exact h.nd_imp s ds0 hs0
      · intro s ds hs
        obtain ⟨ds0, hs0, _, hsb, _⟩ := decomp hs
        rw [hsb]
        by_cases hsT : s = T
        · rw [if_pos hsT]
          exact nodup_setAdd (h.nd_by s ds0 hs0)
        · rw [if_neg hsT]
          exact h.nd_by s ds0 hs0
      · intro s ds hs
        obtain ⟨ds0, hs0, _, _, hsd⟩ := decomp hs
        rw [hsd]
        by_cases hsS : s = S
        · rw [if_pos hsS]
          exact nodup_keysOf_detailUpdate (h.nd_det s ds0 hs0)
        · rw [if_neg hsS]
          exact h.nd_det s ds0 hs0
    · simpa [processImport, hT, hg] using h

theorem DepMapInv.preserve_foldImports {K : List String} {f2m : List (String × String)}
    {S : String} (hS : S ∈ K) (hR : ∀ p T, mapFind? f2m p = some T → T ∈ K)
    (l : List ImportInfo) :
    ∀ m, DepMapInv K m → DepMapInv K (l.foldl (processImport f2m S) m) := by
  induction l with
  | nil => intro m h; simpa using h
  | cons i rest ih =>
    intro m h
    exact ih _ (h.preserve_processImport i hS hR)

theorem DepMapInv.preserve_processFile {K : List String} {f2m : List (String × String)}
    (hR : ∀ p T, mapFind? f2m p = some T → T ∈ K) (f : SrcFile) :
    ∀ m, DepMapInv K m → DepMapInv K (processFile f2m m f) := by
  intro m h
  unfold processFile
  by_cases ht : f.isTest
  · simpa [ht] using h
  · rw [if_neg ht]
    rcases hS : mapFind? f2m f.path with _ | S
    · simpa [hS] using h
    · by_cases hS0 : S = ""
      · simpa [hS, hS0] using h
      · simp only [hS]
        rw [if_neg hS0]
        exact DepMapInv.preserve_foldImports (hR _ _ hS) hR f.imports m h

theorem depMapInv_init (modules : List (String × ModuleInfo)) :
    DepMapInv (keysOf modules) (modules.map (fun e => (e.1, emptyDeps))) := by
  have hconst : ∀ x dx, mapFind? (modules.map (fun e => (e.1, emptyDeps))) x = some dx →
      dx = emptyDeps := by
    intro x dx hx
    rw [mapFind?_mapConst] at hx
    rcases h0 : mapFind? modules x with _ | v
    · rw [h0] at hx
      cases hx
    · rw [h0] at hx
      exact (Option.some.inj hx).symm
  constructor
  · exact keysOf_mapConst modules emptyDeps
  · intro s ds t dt hs ht
    rw [hconst _ _ hs, hconst _ _ ht]
    simp [emptyDeps]
  · intro s ds t hs
    rw [hconst _ _ hs]
    simp [emptyDeps, keysOf]
  · intro s ds t hs
    rw [hconst _ _ hs]
    simp [emptyDeps]
  · intro s ds t hs
    rw [hconst _ _ hs]
    simp [emptyDeps]
  · intro s ds hs
    rw [hconst _ _ hs]
    simp [emptyDeps]
  · intro s ds hs
    rw [hconst _ _ hs]
    simp [emptyDeps]
  · intro s ds hs
    rw [hconst _ _ hs]
    simp [emptyDeps]
  · intro s ds hs
    rw [hconst _ _ hs]
    simp [emptyDeps, keysOf]

theorem depMapInv_foldFiles {K : List String} {f2m : List (String × String)}
    (hR : ∀ p T, mapFind? f2m p = some T → T ∈ K) (files : List SrcFile) :
    ∀ m, DepMapInv K m → DepMapInv K (files.foldl (processFile f2m) m) := by
  induction files with
  | nil => intro m h; simpa using h
  | cons f rest ih =>
    intro m h
    exact ih _ (DepMapInv.preserve_processFile hR f m h)

/-- The dependency map built by `buildModuleDependencyGraph` satisfies the
full invariant, with keys exactly the detected module ids. -/
theorem depMapInv_build (modules : List (String × ModuleInfo)) (files : List SrcFile) :
    DepMapInv (keysOf modules) (buildModuleDependencyGraph modules files) := by
  unfold buildModuleDependencyGraph
  exact depMapInv_foldFiles (fileToModuleMap_range modules) files _ (depMapInv_init modules)

/-! ### From the dependency map to the serialized nodes and edges -/

theorem node_fields {modules : List (String × ModuleInfo)} {deps : List (String × ModuleDeps)}
    (inv : DepMapInv (keysOf modules) deps) {n : ModuleNode}
    (hn : n ∈ moduleGraphOf modules deps) :
    ∃ d, mapFind? deps n.id = some d ∧ n.imports = d.imports ∧ n.importedBy = d.importedBy ∧
      n.importDetails = d.importDetails.map (fun p => ⟨p.1, p.2.symbols, p.2.count⟩) := by
  unfold moduleGraphOf at hn
  obtain ⟨e, he, rfl⟩ := List.mem_map.mp hn
  have hid : e.1 ∈ keysOf deps := by
    rw [inv.keys_eq]
    exact List.mem_map_of_mem Prod.fst he
  obtain ⟨d, hd⟩ := Option.isSome_iff_exists.mp ((mapFind?_isSome_iff deps e.1).mpr hid)
  refine ⟨d, hd, ?_, ?_, ?_⟩ <;> simp [hd]

theorem moduleGraphOf_ids (modules : List (String × ModuleInfo))
    (deps : List (String × ModuleDeps)) :
    (moduleGraphOf modules deps).map (fun n => n.id) = keysOf modules := by
  unfold moduleGraphOf keysOf
  rw [List.map_map]
  rfl

theorem exists_node_of_key (deps : List (String × ModuleDeps))
    {modules : List (String × ModuleInfo)} {x : String} (hx : x ∈ keysOf modules) :
    ∃ c, c ∈ moduleGraphOf modules deps ∧ c.id = x := by
  rw [← moduleGraphOf_ids modules deps] at hx
  obtain ⟨c, hc, rfl⟩ := List.mem_map.mp hx
  exact ⟨c, hc, rfl⟩

theorem mem_edgesOf_iff {g : List ModuleNode} {e : Edge} :
    e ∈ edgesOf g ↔ ∃ n, n ∈ g ∧ ∃ p, p ∈ n.importDetails ∧
      e = Edge.mk n.id p.module p.count p.symbols := by
  unfold edgesOf
  constructor
  · intro he
    rw [List.mem_flatten] at he
    obtain ⟨l, hl, hel⟩ := he
    obtain ⟨n, hn, rfl⟩ := List.mem_map.mp hl
    obtain ⟨p, hp, rfl⟩ := List.mem_map.mp hel
    exact ⟨n, hn, p, hp, rfl⟩
  · rintro ⟨n, hn, p, hp, rfl⟩
    rw [List.mem_flatten]
    exact ⟨_, List.mem_map_of_mem _ hn, List.mem_map_of_mem _ hp⟩

/-- Membership in a node's serialized `importDetails` corresponds to a key
of the underlying detail map. -/
theorem detail_key_iff {d : ModuleDeps} {t : String} :
    (∃ p ∈ d.importDetails.map (fun p => (⟨p.1, p.2.symbols, p.2.count⟩ : ImportDetailOut)),
        p.module = t) ↔ t ∈ keysOf d.importDetails := by
  constructor
  · rintro ⟨p, hp, hpt⟩
    obtain ⟨q, hq, rfl⟩ := List.mem_map.mp hp
    rw [← hpt]
    exact List.mem_map_of_mem Prod.fst hq
  · intro ht
    obtain ⟨q, hq, rfl⟩ := List.mem_map.mp ht
    exact ⟨⟨q.1, q.2.symbols, q.2.count⟩, List.mem_map_of_mem _ hq, rfl⟩

theorem length_eq_distinctCount_of_mem_iff {l1 l2 : List String} (hnd : l1.Nodup)
    (h : ∀ x, x ∈ l2 ↔ x ∈ l1) : l1.length = distinctCount l2 := by
  unfold distinctCount
  have h2 : l2.toFinset = l1.toFinset := by
    ext a
    simp [h]
  have c2 := List.card_toFinset l2
  have c1 := List.card_toFinset l1
  rw [h2, c1, List.Nodup.dedup hnd] at c2
  exact c2

/-- The sources of the edges into a node are exactly its `importedBy`
entries, and the targets of the edges out of it exactly its `imports`
entries. -/
theorem edge_src_mem_iff (files : List SrcFile) {n : ModuleNode}
    (hn : n ∈ analyzeDirectories files) (x : String) :
    (x ∈ ((edgesOf (analyzeDirectories files)).filter
        (fun e => e.tgt == n.id)).map (fun e => e.src) ↔ x ∈ n.importedBy) ∧
    (x ∈ ((edgesOf (analyzeDirectories files)).filter
        (fun e => e.src == n.id)).map (fun e => e.tgt) ↔ x ∈ n.imports) := by
  have inv := depMapInv_build (detectModules files) files
  obtain ⟨d, hd, hni, hnb, hnd⟩ := node_fields inv hn
  constructor
  · constructor
    · intro hx
      obtain ⟨e, hef, rfl⟩ := List.mem_map.mp hx
      rw [List.mem_filter] at hef
      obtain ⟨he, htgt⟩ := hef
      rw [beq_iff_eq] at htgt
      obtain ⟨c, hc, p, hp, rfl⟩ := mem_edgesOf_iff.mp he
      obtain ⟨dc, hdc, hci, hcb, hcd⟩ := node_fields inv hc
      have hkey : n.id ∈ keysOf dc.importDetails := by
        rw [← detail_key_iff]
        exact ⟨p, hcd ▸ hp, htgt⟩
      have himps : n.id ∈ dc.imports := (inv.det_iff c.id dc n.id hdc).mpr hkey
      rw [hnb]
      exact (inv.mirror c.id dc n.id d hdc hd).mp himps
    · intro hx
      rw [hnb] at hx
      have hxK : x ∈ keysOf (detectModules files) := inv.closed_by n.id d x hd hx
      obtain ⟨dx, hdx⟩ := Option.isSome_iff_exists.mp
        ((mapFind?_isSome_iff _ x).mpr (inv.keys_eq ▸ hxK))
      have himps : n.id ∈ dx.imports := (inv.mirror x dx n.id d hdx hd).mpr hx
      have hkey : n.id ∈ keysOf dx.importDetails := (inv.det_iff x dx n.id hdx).mp himps
      obtain ⟨c, hc, hcid⟩ := exists_node_of_key
        (buildModuleDependencyGraph (detectModules files) files) hxK
      obtain ⟨dc, hdc, hci, hcb, hcd⟩ := node_fields inv hc
      have hdceq : dc = dx := by
        rw [hcid] at hdc
        exact Option.some.inj (hdc.symm.trans hdx)
      obtain ⟨q, hq, hqt⟩ := detail_key_iff.mpr (hdceq ▸ hkey)
      refine List.mem_map.mpr ⟨Edge.mk c.id q.module q.count q.symbols, ?_, hcid⟩
      rw [List.mem_filter]
      obtain ⟨q0, hq0, rfl⟩ := List.mem_map.mp hq
      refine ⟨mem_edgesOf_iff.mpr ⟨c, hc, ⟨q0.1, q0.2.symbols, q0.2.count⟩, ?_, rfl⟩, ?_⟩
      · rw [hcd]
        exact List.mem_map_of_mem _ hq0
      · simpa using hqt
  · constructor
    · intro hx
      obtain ⟨e, hef, rfl⟩ := List.mem_map.mp hx
      rw [List.mem_filter] at hef
      obtain ⟨he, hsrc⟩ := hef
      rw [beq_iff_eq] at hsrc
      obtain ⟨c, hc, p, hp, rfl⟩ := mem_edgesOf_iff.mp he
      obtain ⟨dc, hdc, hci, hcb, hcd⟩ := node_fields inv hc
      have hdceq : dc = d := by
        simp only at hsrc
        rw [hsrc] at hdc
        exact Option.some.inj (hdc.symm.trans hd)
      have hkey : p.module ∈ keysOf dc.importDetails := by
        rw [← detail_key_iff]
        exact ⟨p, hcd ▸ hp, rfl⟩
      rw [hni, ← hdceq]
      exact (inv.det_iff c.id dc p.module hdc).mpr hkey
    · intro hx
      rw [hni] at hx
      have hkey : x ∈ keysOf d.importDetails := (inv.det_iff n.id d x hd).mp hx
      obtain ⟨q, hq, hqt⟩ := detail_key_iff.mpr hkey
      refine List.mem_map.mpr ⟨Edge.mk n.id q.module q.count q.symbols, ?_, hqt⟩
      rw [List.mem_filter]
      obtain ⟨q0, hq0, rfl⟩ := List.mem_map.mp hq
      refine ⟨mem_edgesOf_iff.mpr ⟨n, hn, ⟨q0.1, q0.2.symbols, q0.2.count⟩, ?_, rfl⟩, ?_⟩
      · rw [hnd]
        exact List.mem_map_of_mem _ hq0
      · simp

/-! ### The module map built by detectModules -/

/-- Invariant of the module map over the prefix of files processed so far:
keys are unique, every module holds exactly the non-test files classified
to it (in processing order) with line counts and file counts summed over
them, and ids without an entry have no matching file yet. -/
structure DetectInv (done : List SrcFile) (acc : List (String × ModuleInfo)) : Prop where
  keys_nd : (keysOf acc).Nodup
  found : ∀ mid m, mapFind? acc mid = some m →
    m.files = done.filter (fun f => !f.isTest && (moduleIdOf f == some mid)) ∧
    m.linesOfCode = (m.files.map (fun f => countLines f.content)).sum ∧
    m.fileCount = m.files.length
  absent : ∀ mid, mapFind? acc mid = none →
    done.filter (fun f => !f.isTest && (moduleIdOf f == some mid)) = []

theorem detectInv_step {done : List SrcFile} {acc : List (String × ModuleInfo)} {f : SrcFile}
    (h : DetectInv done acc) : DetectInv (done ++ [f]) (detectStep acc f) := by
  by_cases hT : f.isTest
  · refine ⟨?_, ?_, ?_⟩
    · simpa [detectStep, hT] using h.keys_nd
    · intro mid m hm
      rw [detectStep, if_pos hT] at hm
      have := h.found mid m hm
      simpa [List.filter_append, hT] using this
    · intro mid hm
      rw [detectStep, if_pos hT] at hm
      have := h.absent mid hm
      simpa [List.filter_append, hT] using this
  · rcases hr : f.root with _ | r
    · have hid : moduleIdOf f = none := by simp [moduleIdOf, hr]
      refine ⟨?_, ?_, ?_⟩
      · simpa [detectStep, hT, hr, hid] using h.keys_nd
      · intro mid m hm
        rw [detectStep, if_neg hT] at hm
        simp only [hr, hid] at hm
        have := h.found mid m hm
        simpa [List.filter_append, hid] using this
      · intro mid hm
        rw [detectStep, if_neg hT] at hm
        simp only [hr, hid] at hm
        have := h.absent mid hm
        simpa [List.filter_append, hid] using this
    · rcases hid : moduleIdOf f with _ | mid0
      · refine ⟨?_, ?_, ?_⟩
        · simpa [detectStep, hT, hr, hid] using h.keys_nd
        · intro mid m hm
          rw [detectStep, if_neg hT] at hm
          simp only [hr, hid] at hm
          have := h.found mid m hm
          simpa [List.filter_append, hid] using this
        · intro mid hm
          rw [detectStep, if_neg hT] at hm
          simp only [hr, hid] at hm
          have := h.absent mid hm
          simpa [List.filter_append, hid] using this
      · have hstep : detectStep acc f =
            if (mapFind? acc mid0).isSome then
              mapUpdate acc mid0 (fun m =>
                { m with
                  files := m.files ++ [f]
                  linesOfCode := m.linesOfCode + countLines f.content
                  fileCount := m.fileCount + 1 })
            else acc ++ [(mid0, ⟨r, [f], countLines f.content, 1⟩)] := by
          rw [detectStep, if_neg hT]
          simp only [hr, hid]
        by_cases hp : (mapFind? acc mid0).isSome
        · rw [hstep, if_pos hp]
          obtain ⟨m0, hm0⟩ := Option.isSome_iff_exists.mp hp
          refine ⟨?_, ?_, ?_⟩
          · simpa [keysOf_mapUpdate] using h.keys_nd
          · intro mid m hm
            rw [mapFind?_mapUpdate] at hm
            by_cases hmid : mid = mid0
            · rw [if_pos hmid, hmid, hm0] at hm
              have hmv := Option.some.inj hm
              obtain ⟨hf0, hl0, hc0⟩ := h.found mid0 m0 hm0
              subst hmid
              refine ⟨?_, ?_, ?_⟩
              · rw [← hmv]
                simp only [List.filter_append]
                rw [← hf0]
                simp [hT, hid]
              · rw [← hmv]
                simp [hl0]
              · rw [← hmv]
                simp [hc0]
            · rw [if_neg hmid] at hm
              have := h.found mid m hm
              have hne : ¬ (moduleIdOf f == some mid) = true := by
                simp [hid]
                exact fun hh => hmid hh.symm
              simpa [List.filter_append, hne] using this
          · intro mid hm
            rw [mapFind?_mapUpdate] at hm
            by_cases hmid : mid = mid0
            · rw [if_pos hmid, hmid, hm0] at hm
              cases hm
            · rw [if_neg hmid] at hm
              have := h.absent mid hm
              have hne : ¬ (moduleIdOf f == some mid) = true := by
                simp [hid]
                exact fun hh => hmid hh.symm
              simpa [List.filter_append, hne] using this
        · rw [hstep, if_neg hp]
          have hmid0 : mid0 ∉ keysOf acc := by
            rw [← mapFind?_eq_none_iff]
            exact Option.not_isSome_iff_eq_none.mp hp
          refine ⟨?_, ?_, ?_⟩
          · have hk : keysOf (acc ++ [(mid0, (⟨r, [f], countLines f.content, 1⟩ :
                ModuleInfo))]) = keysOf acc ++ [mid0] := by
              simp [keysOf]
            rw [hk]
            refine List.Nodup.append h.keys_nd (List.nodup_singleton mid0) ?_
            intro a ha hb
            rw [List.mem_singleton] at hb
            exact hmid0 (hb ▸ ha)
          · intro mid m hm
            rw [mapFind?_append] at hm
            rcases h0 : mapFind? acc mid with _ | m1
            · rw [h0] at hm
              simp only [mapFind?] at hm
              by_cases hmid : mid = mid0
              · rw [if_pos hmid] at hm
                have hmv := Option.some.inj hm
                have habs := h.absent mid h0
                subst hmid
                refine ⟨?_, ?_, ?_⟩
                · rw [← hmv]
                  simp only [List.filter_append]
                  rw [habs]
                  simp [hT, hid]
                · rw [← hmv]
                  simp
                · rw [← hmv]
                  simp
              · rw [if_neg hmid] at hm
                cases hm
            · rw [h0] at hm
              have hmv : m1 = m := Option.some.inj hm
              subst hmv
              have := h.found mid m1 h0
              have hmid : ¬ mid = mid0 := by
                intro hh
                rw [hh] at h0
                rw [h0] at hp
                simp at hp
              have hne : ¬ (moduleIdOf f == some mid) = true := by
                simp [hid]
                exact fun hh => hmid hh.symm
              simpa [List.filter_append, hne] using this
          · intro mid hm
            rw [mapFind?_append] at hm
            rcases h0 : mapFind? acc mid with _ | m1
            · rw [h0] at hm
              simp only [mapFind?] at hm
              by_cases hmid : mid = mid0
              · rw [if_pos hmid] at hm
                cases hm
              · have := h.absent mid h0
                have hne : ¬ (moduleIdOf f == some mid) = true := by
                  simp [hid]
                  exact fun hh => hmid hh.symm
                simpa [List.filter_append, hne] using this
            · rw [h0] at hm
              cases hm

theorem detectInv_fold (files : List SrcFile) :
    ∀ done acc, DetectInv done acc →
      DetectInv (done ++ files) (files.foldl detectStep acc) := by
  induction files with
  | nil => intro done acc h; simpa using h
  | cons f rest ih =>
    intro done acc h
    have := ih (done ++ [f]) _ (detectInv_step h)
    simpa using this

/-- The module map produced by `detectModules` satisfies the invariant
over the full file list. -/
theorem detectInv_detectModules (files : List SrcFile) :
    DetectInv files (detectModules files) := by
  have hinit : DetectInv [] [] := by
    refine ⟨List.nodup_nil, ?_, ?_⟩
    · intro mid m hm
      cases hm
    · intro mid _
      rfl
  have := detectInv_fold files [] [] hinit
  simpa [detectModules] using this

/-! ### The per-file extraction loop -/

theorem runParseAll_go (fsE : String → Bool) (tsR : String → Option String) (root : String)
    (files : List FileParse) :
    ∀ acc : List (String × List RawImport) × List String,
      files.foldl (fun acc fp =>
        let r := parseImportsWithTsMorph fsE tsR root fp
        (acc.1 ++ [(fp.name, r.1)],
          match r.2 with
          | some w => acc.2 ++ [w]
          | none => acc.2)) acc =
      (acc.1 ++ files.map (fun fp => (fp.name, (parseImportsWithTsMorph fsE tsR root fp).1)),
       acc.2 ++ files.filterMap (fun fp => (parseImportsWithTsMorph fsE tsR root fp).2)) := by
  induction files with
  | nil => intro acc; simp
  | cons fp rest ih =>
    intro acc
    rw [List.foldl_cons, ih]
    rcases hw : (parseImportsWithTsMorph fsE tsR root fp).2 with _ | w <;>
      simp [hw, List.filterMap_cons]

theorem runParseAll_fst (fsE : String → Bool) (tsR : String → Option String) (root : String)
    (files : List FileParse) :
    (runParseAll fsE tsR root files).1 =
      files.map (fun fp => (fp.name, (parseImportsWithTsMorph fsE tsR root fp).1)) := by
  unfold runParseAll
  rw [runParseAll_go]
  simp

theorem runParseAll_snd (fsE : String → Bool) (tsR : String → Option String) (root : String)
    (files : List FileParse) :
    (runParseAll fsE tsR root files).2 =
      files.filterMap (fun fp => (parseImportsWithTsMorph fsE tsR root fp).2) := by
  unfold runParseAll
  rw [runParseAll_go]
  simp

/-- Every import extracted by the regex fallback carries no symbol
detail. -/
theorem regexFallback_symbols_nil (fsE : String → Bool) (root : String) (fp : FileParse) :
    ∀ r ∈ parseImportsRegexFallback fsE root fp, r.symbols = [] := by
  intro r hr
  unfold parseImportsRegexFallback at hr
  obtain ⟨i, hi, hir⟩ := List.mem_filterMap.mp hr
  have hisym : i.symbols = [] := by
    obtain ⟨s, hs, rfl⟩ := List.mem_map.mp hi
    rfl
  rcases hres : resolveImportPath fsE i.path fp.dir with _ | rp
  · rw [hres] at hir
    cases hir
  · rw [hres] at hir
    by_cases hf : fsE rp = true
    · simp [hf] at hir
      subst hir
      exact hisym
    · simp [hf] at hir

/-! ### Claim theorems -/

/-- Claim C1: the spec says an edge's count equals the number of distinct
source files that import from the target module, a file with several
statements contributing only 1.  The code instead increments the count
once per resolved import statement: on `twoImportFiles`, where the single
file `apps/a/x.ts` has two import statements into `libs/util`, the
emitted edge carries count 2 while the number of distinct contributing
files is 1. -/
theorem edge_count_counts_import_statements :
    edgesOf (analyzeDirectories twoImportFiles) = [edgeAppsAToLibsUtil] ∧
    edgeAppsAToLibsUtil.count = 2 ∧
    contributingFileCount twoImportFiles "apps/a" "libs/util" = 1 :=
  ⟨rfl, rfl, rfl⟩

/-- Claim C2: for every module node of the produced graph, incomingCount
(the length of the emitted duplicate-free importedBy array) equals the
number of distinct modules with an edge into it, and outgoingCount the
number of distinct modules it has an edge into — module degree counts,
not sums of per-edge count weights. -/
theorem incoming_outgoing_are_module_degrees (files : List SrcFile) :
    ∀ n ∈ analyzeDirectories files,
      incomingCount n = distinctCount (((edgesOf (analyzeDirectories files)).filter
        (fun e => e.tgt == n.id)).map (fun e => e.src)) ∧
      outgoingCount n = distinctCount (((edgesOf (analyzeDirectories files)).filter
        (fun e => e.src == n.id)).map (fun e => e.tgt)) := by
  intro n hn
  have inv := depMapInv_build (detectModules files) files
  obtain ⟨d, hd, hni, hnb, hnd⟩ := node_fields inv hn
  constructor
  · refine length_eq_distinctCount_of_mem_iff ?_ (fun x => (edge_src_mem_iff files hn x).1)
    show n.importedBy.Nodup
    rw [hnb]
    exact inv.nd_by n.id d hd
  · refine length_eq_distinctCount_of_mem_iff ?_ (fun x => (edge_src_mem_iff files hn x).2)
    show n.imports.Nodup
    rw [hni]
    exact inv.nd_imp n.id d hd

/-- Witness for C2: on `twoImportFiles`, the `libs/util` node has
incomingCount 1 = one distinct importing module and outgoingCount 0. -/
theorem incoming_outgoing_are_module_degrees_witness :
    incomingCount nodeLibsUtil = distinctCount (((edgesOf (analyzeDirectories twoImportFiles)).filter
      (fun e => e.tgt == nodeLibsUtil.id)).map (fun e => e.src)) ∧
    outgoingCount nodeLibsUtil = distinctCount (((edgesOf (analyzeDirectories twoImportFiles)).filter
      (fun e => e.src == nodeLibsUtil.id)).map (fun e => e.tgt)) :=
  incoming_outgoing_are_module_degrees twoImportFiles nodeLibsUtil (by decide)

/-- Claim C3: no emitted edge has its source module id equal to its target
module id; an import between two files of the same module contributes
nothing to the edge set. -/
theorem edges_have_no_self_loops (files : List SrcFile) :
    ∀ e ∈ edgesOf (analyzeDirectories files), e.src ≠ e.tgt := by
  intro e he
  have inv := depMapInv_build (detectModules files) files
  obtain ⟨n, hn, p, hp, rfl⟩ := mem_edgesOf_iff.mp he
  obtain ⟨d, hd, hni, hnb, hnd⟩ := node_fields inv hn
  intro hcon
  have hkey : p.module ∈ keysOf d.importDetails := by
    rw [← detail_key_iff]
    exact ⟨p, hnd ▸ hp, rfl⟩
  have himp : p.module ∈ d.imports := (inv.det_iff n.id d p.module hd).mpr hkey
  have hno := inv.no_self n.id d hd
  have hid : n.id = p.module := hcon
  rw [← hid] at himp
  exact hno himp

/-- Witness for C3: the concrete edge emitted on `twoImportFiles` goes
between two distinct modules. -/
theorem edges_have_no_self_loops_witness :
    edgeAppsAToLibsUtil.src ≠ edgeAppsAToLibsUtil.tgt :=
  edges_have_no_self_loops twoImportFiles edgeAppsAToLibsUtil (by decide)

/-- Claim C4: the spec says an edge's count never exceeds the source
module's fileCount.  Because the code counts import statements rather
than distinct files, on `twoImportFiles` the emitted edge has count 2
while its source module `apps/a` has fileCount 1. -/
theorem edge_count_can_exceed_source_fileCount :
    ∃ e, e ∈ edgesOf (analyzeDirectories twoImportFiles) ∧
      ∃ n, n ∈ analyzeDirectories twoImportFiles ∧ n.id = e.src ∧ n.fileCount < e.count :=
  ⟨edgeAppsAToLibsUtil, by decide, nodeAppsA, by decide, rfl, by decide⟩

/-- Claim C5 (counterexample): with `/proj/src/utils` existing as a bare
path (as a directory does for `fs.existsSync`) while every extension
candidate and every index candidate is absent, the resolver returns the
bare path rather than the null the claim's step (6) asserts. -/
theorem resolver_step6_returns_existing_bare_path :
    extname (pathResolve "/proj/src" "./utils") = "" ∧
    (∀ e ∈ extensions, dirOnlyFs (pathResolve "/proj/src" "./utils" ++ e) = false) ∧
    (∀ e ∈ extensions, dirOnlyFs ((pathResolve "/proj/src" "./utils" ++ "/index") ++ e) = false) ∧
    resolveImportPath dirOnlyFs "./utils" "/proj/src" = some "/proj/src/utils" :=
  ⟨rfl, by decide, by decide, rfl⟩

/-- Claim C5 (amended): for a specifier whose resolved path has no
extension, the resolver returns the first existing extension candidate in
the fixed preference order; failing that, the first existing candidate of
the same search against `<resolved>/index`; failing that, it returns the
bare resolved path when that exists (e.g. a directory) and null only when
it does not. -/
theorem resolver_extension_search_order (fsE : String → Bool) (imp dir : String)
    (hext : extname (pathResolve dir imp) = "") :
    (∀ e, extensions.find? (fun x => fsE (pathResolve dir imp ++ x)) = some e →
      resolveImportPath fsE imp dir = some (pathResolve dir imp ++ e)) ∧
    ((∀ e ∈ extensions, fsE (pathResolve dir imp ++ e) = false) →
      ∀ e, extensions.find? (fun x => fsE ((pathResolve dir imp ++ "/index") ++ x)) = some e →
        resolveImportPath fsE imp dir = some ((pathResolve dir imp ++ "/index") ++ e)) ∧
    ((∀ e ∈ extensions, fsE (pathResolve dir imp ++ e) = false) →
      (∀ e ∈ extensions, fsE ((pathResolve dir imp ++ "/index") ++ e) = false) →
      resolveImportPath fsE imp dir =
        (if fsE (pathResolve dir imp) then some (pathResolve dir imp) else none)) := by
  have hres : resolveImportPath fsE imp dir =
      match tryWithExtensions fsE (pathResolve dir imp) with
      | some p => some p
      | none =>
        match tryWithExtensions fsE (pathResolve dir imp ++ "/index") with
        | some p => some p
        | none =>
          if fsE (pathResolve dir imp) then some (pathResolve dir imp) else none := by
    show (if extname (pathResolve dir imp) = "" then
        match tryWithExtensions fsE (pathResolve dir imp) with
        | some p => some p
        | none =>
          match tryWithExtensions fsE (pathResolve dir imp ++ "/index") with
          | some p => some p
          | none =>
            if fsE (pathResolve dir imp) then some (pathResolve dir imp) else none
      else if fsE (pathResolve dir imp) then some (pathResolve dir imp) else none) = _
    rw [if_pos hext]
  refine ⟨?_, ?_, ?_⟩
  · intro e hfind
    rw [hres]
    simp [tryWithExtensions, hfind]
  · intro h1 e hfind
    have h1n : extensions.find? (fun x => fsE (pathResolve dir imp ++ x)) = none :=
      List.find?_eq_none.mpr (fun x hx => by simp [h1 x hx])
    rw [hres]
    simp [tryWithExtensions, h1n, hfind]
  · intro h1 h2
    have h1n : extensions.find? (fun x => fsE (pathResolve dir imp ++ x)) = none :=
      List.find?_eq_none.mpr (fun x hx => by simp [h1 x hx])
    have h2n : extensions.find? (fun x => fsE ((pathResolve dir imp ++ "/index") ++ x)) = none :=
      List.find?_eq_none.mpr (fun x hx => by simp [h2 x hx])
    rw [hres]
    simp [tryWithExtensions, h1n, h2n]

/-- Witness for the amended C5: with only `/pr/a/b.ts` existing, `./b`
from `/pr/a` resolves to the first matching extension candidate. -/
theorem resolver_extension_search_order_witness :
    resolveImportPath oneFileFs "./b" "/pr/a" = some (pathResolve "/pr/a" "./b" ++ ".ts") :=
  (resolver_extension_search_order oneFileFs "./b" "/pr/a" (by decide)).1 ".ts" (by decide)

/-- Claim C6: a structured-parse error for one file never aborts the run:
every file still gets its entry, in order; the failing file's imports are
the regex fallback's specifier-only records (no symbol detail); and a
warning naming the file is recorded. -/
theorem parse_failure_falls_back_to_regex (fsE : String → Bool) (tsR : String → Option String)
    (root : String) (files : List FileParse) (fp : FileParse) (msg : String)
    (hmem : fp ∈ files) (herr : fp.outcome = .err msg) :
    (runParseAll fsE tsR root files).1.map Prod.fst = files.map (fun f => f.name) ∧
    (fp.name, parseImportsRegexFallback fsE root fp) ∈ (runParseAll fsE tsR root files).1 ∧
    ("Warning: Failed to parse " ++ fp.name ++ " with ts-morph: " ++ msg)
      ∈ (runParseAll fsE tsR root files).2 ∧
    ∀ r ∈ parseImportsRegexFallback fsE root fp, r.symbols = [] := by
  refine ⟨?_, ?_, ?_, regexFallback_symbols_nil fsE root fp⟩
  · rw [runParseAll_fst, List.map_map]
    rfl
  · rw [runParseAll_fst]
    have heq : (fp.name, parseImportsRegexFallback fsE root fp) =
        (fun fp => (fp.name, (parseImportsWithTsMorph fsE tsR root fp).1)) fp := by
      simp [parseImportsWithTsMorph, herr]
    rw [heq]
    exact List.mem_map_of_mem _ hmem
  · rw [runParseAll_snd]
    refine List.mem_filterMap.mpr ⟨fp, hmem, ?_⟩
    simp [parseImportsWithTsMorph, herr]

/-- Witness for C6: a two-file run in which the first file's parse fails
still processes both files, uses the fallback for the first one and
records the warning. -/
theorem parse_failure_falls_back_to_regex_witness :
    (runParseAll oneFileFs (fun _ => none) "/pr" [failingParseFile, okParseFile]).1.map Prod.fst =
      [failingParseFile, okParseFile].map (fun f => f.name) ∧
    (failingParseFile.name, parseImportsRegexFallback oneFileFs "/pr" failingParseFile) ∈
      (runParseAll oneFileFs (fun _ => none) "/pr" [failingParseFile, okParseFile]).1 ∧
    ("Warning: Failed to parse " ++ failingParseFile.name ++ " with ts-morph: " ++ "boom") ∈
      (runParseAll oneFileFs (fun _ => none) "/pr" [failingParseFile, okParseFile]).2 ∧
    ∀ r ∈ parseImportsRegexFallback oneFileFs "/pr" failingParseFile, r.symbols = [] :=
  parse_failure_falls_back_to_regex oneFileFs (fun _ => none) "/pr"
    [failingParseFile, okParseFile] failingParseFile "boom" (List.mem_cons_self _ _) rfl

/-- Claim C7 (counterexample): with one production file (3 lines) and one
test file in the module directory `apps/b`, the emitted module has
fileCount 1 and linesOfCode 3 — the test file is dropped by
`detectModules` before any aggregation, so the claim that the file count
includes test files fails (it would require fileCount 2 here, both files
being classified to `apps/b`). -/
theorem module_totals_drop_test_files :
    (detectModules prodAndTestFiles).map (fun e => (e.1, e.2.fileCount, e.2.linesOfCode)) =
      [("apps/b", 1, 3)] ∧
    (prodAndTestFiles.filter (fun f => moduleIdOf f == some "apps/b")).length = 2 :=
  ⟨rfl, rfl⟩

/-- Claim C7 (amended): per module, the aggregated line count is the sum
of raw line counts (blank lines included) over the module's non-test
member files and the file count is the number of those files; test files
are excluded from the module's totals entirely — not only from edge
contribution — and appear only in the run-level test statistics. -/
theorem module_totals_sum_nontest_files (files : List SrcFile) :
    ∀ mid m, mapFind? (detectModules files) mid = some m →
      m.files = files.filter (fun f => !f.isTest && (moduleIdOf f == some mid)) ∧
      m.linesOfCode = (m.files.map (fun f => countLines f.content)).sum ∧
      m.fileCount = m.files.length := by
  intro mid m hm
  exact (detectInv_detectModules files).found mid m hm

/-- Witness for the amended C7: the `apps/b` module on
`prodAndTestFiles`. -/
theorem module_totals_sum_nontest_files_witness :
    moduleAppsB.files = prodAndTestFiles.filter
      (fun f => !f.isTest && (moduleIdOf f == some "apps/b")) ∧
    moduleAppsB.linesOfCode = (moduleAppsB.files.map (fun f => countLines f.content)).sum ∧
    moduleAppsB.fileCount = moduleAppsB.files.length :=
  module_totals_sum_nontest_files prodAndTestFiles "apps/b" moduleAppsB (by decide)

/-- Claim C8: a classified non-test file's module id is built from its
root-relative path: more than one segment gives
`<root-label>/<first-segment>`, a single segment (file directly in the
root) gives `<root-label>/<filename-without-extension>`; the file lands in
exactly that module of the detected module map. -/
theorem module_id_from_root_relative_path (files : List SrcFile) (f : SrcFile) (r : Root)
    (hf : f ∈ files) (ht : f.isTest = false) (hr : f.root = some r)
    (s : String) (rest : List String) (hsplit : splitOnChar '/' f.relPath = s :: rest) :
    ∃ m, mapFind? (detectModules files)
        (r.label ++ "/" ++ (if rest = [] then stripExt s else s)) = some m ∧ f ∈ m.files := by
  have hid : moduleIdOf f = some (r.label ++ "/" ++ (if rest = [] then stripExt s else s)) := by
    unfold moduleIdOf
    rw [hr, hsplit]
    cases rest with
    | nil => simp
    | cons a l => simp
  have hpred : (!f.isTest && (moduleIdOf f ==
      some (r.label ++ "/" ++ (if rest = [] then stripExt s else s)))) = true := by
    simp [ht, hid]
  have hfmem : f ∈ files.filter (fun f => !f.isTest && (moduleIdOf f ==
      some (r.label ++ "/" ++ (if rest = [] then stripExt s else s)))) :=
    List.mem_filter.mpr ⟨hf, hpred⟩
  rcases hfind : mapFind? (detectModules files)
      (r.label ++ "/" ++ (if rest = [] then stripExt s else s)) with _ | m
  · have habs := (detectInv_detectModules files).absent _ hfind
    rw [habs] at hfmem
    cases hfmem
  · obtain ⟨hfiles, _, _⟩ := (detectInv_detectModules files).found _ m hfind
    refine ⟨m, rfl, ?_⟩
    rw [hfiles]
    exact hfmem

/-- Witness for C8: `apps/a/x.ts` (root-relative path `a/x.ts`, two
segments) lands in module `apps/a`. -/
theorem module_id_from_root_relative_path_witness :
    ∃ m, mapFind? (detectModules twoImportFiles)
        (Root.app.label ++ "/" ++ (if (["x.ts"] : List String) = [] then stripExt "a" else "a")) =
          some m ∧ fileAX ∈ m.files :=
  module_id_from_root_relative_path twoImportFiles fileAX .app (List.mem_cons_self _ _)
    rfl rfl "a" ["x.ts"] (by decide)

/-- Claim C9: the embedded pipeline and resolver are pure functions of
the discovered file set, respectively of the specifier, importing
directory and file-existence predicate: equal inputs give identical nodes
and edges (the generatedAt timestamp lives outside the model) and
identical resolution results. -/
theorem pipeline_and_resolution_deterministic (files files' : List SrcFile)
    (hf : files = files') (fsE fsE' : String → Bool) (s s' d d' : String)
    (h1 : fsE = fsE') (h2 : s = s') (h3 : d = d') :
    analyzeDirectories files = analyzeDirectories files' ∧
    edgesOf (analyzeDirectories files) = edgesOf (analyzeDirectories files') ∧
    resolveImportPath fsE s d = resolveImportPath fsE' s' d' := by
  subst hf
  subst h1
  subst h2
  subst h3
  exact ⟨rfl, rfl, rfl⟩

/-- Witness for C9 at a concrete file set and resolution query. -/
theorem pipeline_and_resolution_deterministic_witness :
    analyzeDirectories twoImportFiles = analyzeDirectories twoImportFiles ∧
    edgesOf (analyzeDirectories twoImportFiles) = edgesOf (analyzeDirectories twoImportFiles) ∧
    resolveImportPath oneFileFs "./b" "/pr/a" = resolveImportPath oneFileFs "./b" "/pr/a" :=
  pipeline_and_resolution_deterministic twoImportFiles twoImportFiles rfl
    oneFileFs oneFileFs "./b" "./b" "/pr/a" "/pr/a" rfl rfl rfl

/-- Claim C10: in the emitted module graph, the forward and reverse
adjacency lists mirror each other — B appears in A's imports exactly when
A appears in B's importedBy — and every id appearing in either list is
itself a module of the output. -/
theorem adjacency_lists_mirror (files : List SrcFile) :
    ∀ a ∈ analyzeDirectories files, ∀ b ∈ analyzeDirectories files,
      (b.id ∈ a.imports ↔ a.id ∈ b.importedBy) ∧
      (∀ x ∈ a.imports, ∃ c ∈ analyzeDirectories files, c.id = x) ∧
      (∀ x ∈ a.importedBy, ∃ c ∈ analyzeDirectories files, c.id = x) := by
  intro a ha b hb
  have inv := depMapInv_build (detectModules files) files
  obtain ⟨da, hda, hai, hab, _⟩ := node_fields inv ha
  obtain ⟨db, hdb, hbi, hbb, _⟩ := node_fields inv hb
  refine ⟨?_, ?_, ?_⟩
  · rw [hai, hbb]
    exact inv.mirror a.id da b.id db hda hdb
  · intro x hx
    rw [hai] at hx
    have hxK := inv.closed_imp a.id da x hda hx
    obtain ⟨c, hc, hcid⟩ := exists_node_of_key
      (buildModuleDependencyGraph (detectModules files) files) hxK
    exact ⟨c, hc, hcid⟩
  · intro x hx
    rw [hab] at hx
    have hxK := inv.closed_by a.id da x hda hx
    obtain ⟨c, hc, hcid⟩ := exists_node_of_key
      (buildModuleDependencyGraph (detectModules files) files) hxK
    exact ⟨c, hc, hcid⟩

/-- Witness for C10: the two nodes emitted on `twoImportFiles` mirror
each other. -/
theorem adjacency_lists_mirror_witness :
    (nodeLibsUtil.id ∈ nodeAppsA.imports ↔ nodeAppsA.id ∈ nodeLibsUtil.importedBy) ∧
    (∀ x ∈ nodeAppsA.imports, ∃ c ∈ analyzeDirectories twoImportFiles, c.id = x) ∧
    (∀ x ∈ nodeAppsA.importedBy, ∃ c ∈ analyzeDirectories twoImportFiles, c.id = x) :=
  adjacency_lists_mirror twoImportFiles nodeAppsA (by decide) nodeLibsUtil (by decide)

end DepGraph
